import Mathlib

/-!
Shallow embedding of the FSM engine in `src/fsm.hpp`: the generic transition
engine `FSM<State, Condition>` and the single-symbol rule compiler
`TextFSM::checkSymbol`.  Flag sets (`EdgeFlag`) are modelled as `Nat` with
explicit bitwise operations.  The C string scanned by `checkSymbol` is
modelled as a `List Char`; the C code's read of the terminating NUL byte at
index `strlen(rule)` (reached by the `idx++` inside the `-` and `\`
branches) is modelled by the default character `'\x00'`, and no position
beyond that is ever consulted.  The `unordered_map` of per-state edge lists
is modelled extensionally as a total function `State → List Edge` with the
absent-key default `[]`, matching `operator[]` lookup semantics.
-/

/-- Value of the `E_NONE` constant of the `EdgeFlag` enum (`0`). -/
def E_NONE : Nat := 0

/-- Value of the `E_SILENT` constant of the `EdgeFlag` enum (`1 << 0`). -/
def E_SILENT : Nat := 1

/-- Value of the `E_GLOBAL` constant of the `EdgeFlag` enum (`1 << 1`). -/
def E_GLOBAL : Nat := 2

/-- Whether a flag word carries the `E_SILENT` bit. -/
def isSilent (flags : Nat) : Bool := Nat.land flags E_SILENT != 0

/-- An edge of the state graph (`FSM::Edge`).  Both C++ `Edge` constructors
store a predicate usable as `rule(cond)`; the `Condition`-valued shorthand
is represented by an equality predicate. -/
structure Edge (St Cd : Type) where
  source : St
  destination : St
  rule : Cd → Bool
  label : String
  flags : Nat

/-- Character-level loop of the label storage in the `Edge` constructors:
each character of the supplied label is kept, and a backslash is doubled. -/
def escapeChars : List Char → List Char
  | [] => []
  | c :: rest => if c == '\\' then c :: c :: escapeChars rest else c :: escapeChars rest

/-- Label storage in the `Edge` constructors. -/
def escapeLabel (s : String) : String := String.mk (escapeChars s.data)

/-- Build an `Edge` as the C++ `Edge` constructor does, escaping the label. -/
def mkEdge {St Cd : Type} (source destination : St) (rule : Cd → Bool)
    (label : String) (flags : Nat) : Edge St Cd :=
  ⟨source, destination, rule, escapeLabel label, flags⟩

/-- The `FSM<State, Condition>` instance: default/current/previous state,
the set of known states, per-state edge lists, global edges and the
diagnostic state-name table. -/
structure FSM (St Cd : Type) where
  default_state : St
  current_state : St
  previous_state : St
  possible_states : List St
  edges : St → List (Edge St Cd)
  global_edges : List (Edge St Cd)
  state_names : St → Option String

variable {St Cd : Type}

/-- `unordered_set::insert`: add an element unless already present. -/
def insertState [DecidableEq St] (l : List St) (x : St) : List St :=
  if x ∈ l then l else l.concat x

/-- The one-argument constructor `FSM(default_state)`. -/
def FSM.init [DecidableEq St] (d : St) : FSM St Cd :=
  ⟨d, d, d, insertState [] d, fun _ => [], [], fun _ => none⟩

/-- The two-argument constructor `FSM(default_state, start_state)`. -/
def FSM.initWithStart [DecidableEq St] (d s : St) : FSM St Cd :=
  ⟨d, s, s, insertState (insertState [] d) s, fun _ => [], [], fun _ => none⟩

/-- `FSM::createEdge`: append an edge to the source state's list and insert
source and destination into `possible_states`. -/
def FSM.createEdge [DecidableEq St] (m : FSM St Cd) (source destination : St)
    (rule : Cd → Bool) (label : String) (flags : Nat) : FSM St Cd :=
  { m with
    edges := fun s =>
      if s = source then (m.edges source).concat (mkEdge source destination rule label flags)
      else m.edges s,
    possible_states := insertState (insertState m.possible_states source) destination }

/-- `FSM::createGlobalEdge`: append an edge (with source `default_state` and
the `E_GLOBAL` bit forced) to the global list and insert the destination
into `possible_states`. -/
def FSM.createGlobalEdge [DecidableEq St] (m : FSM St Cd) (destination : St)
    (rule : Cd → Bool) (label : String) (flags : Nat) : FSM St Cd :=
  { m with
    global_edges :=
      m.global_edges.concat (mkEdge m.default_state destination rule label (Nat.lor flags E_GLOBAL)),
    possible_states := insertState m.possible_states destination }

/-- `FSM::setStateName`. -/
def FSM.setStateName [DecidableEq St] (m : FSM St Cd) (state : St)
    (state_name : String) : FSM St Cd :=
  { m with state_names := fun s => if s = state then some state_name else m.state_names s }

/-- `FSM::stateName`: the registered name, or `""` if none. -/
def FSM.stateName (m : FSM St Cd) (state : St) : String :=
  match m.state_names state with
  | some n => n
  | none => ""

/-- `FSM::getEdge`: first edge of the current state's list whose rule
accepts the condition; if none, first accepting global edge. -/
def FSM.getEdge (m : FSM St Cd) (cond : Cd) : Option (Edge St Cd) :=
  match (m.edges m.current_state).find? (fun e => e.rule cond) with
  | some e => some e
  | none => m.global_edges.find? (fun e => e.rule cond)

/-- Contribution of one taken edge to `passed_edge`.  The source writes
`passed_edge |= !(edge.flags & E_SILENT == E_SILENT)`; C++ precedence parses
this as `!(flags & (E_SILENT == E_SILENT))`, i.e. `!(flags & 1)` — which,
because `E_SILENT = 1`, coincides with the silent-bit test. -/
def passedContribution (flags : Nat) : Bool := Nat.land flags 1 == 0

/-- `FSM::process(cond)`: snapshot `previous_state`, take the first matching
edge if any, and if the machine lands on the default state, dispatch the
same condition once more.  Returns the updated machine and `passed_edge`. -/
def FSM.process [DecidableEq St] (m : FSM St Cd) (cond : Cd) : FSM St Cd × Bool :=
  match FSM.getEdge { m with previous_state := m.current_state } cond with
  | none => ({ m with previous_state := m.current_state }, false)
  | some e =>
    if e.destination = m.default_state then
      match FSM.getEdge { m with previous_state := m.current_state, current_state := e.destination } cond with
      | none =>
        ({ m with previous_state := m.current_state, current_state := e.destination },
          passedContribution e.flags)
      | some e2 =>
        ({ m with previous_state := m.current_state, current_state := e2.destination },
          passedContribution e.flags || passedContribution e2.flags)
    else
      ({ m with previous_state := m.current_state, current_state := e.destination },
        passedContribution e.flags)

/-- `FSM::previousState`. -/
def FSM.previousState (m : FSM St Cd) : St := m.previous_state

/-- `FSM::currentState`. -/
def FSM.currentState (m : FSM St Cd) : St := m.current_state

/-- The overload `FSM::process(cond, ended_state, state_changed)`:
`state_changed` receives the result of `process(cond)` and `ended_state`
receives `previousState()` as read after that inner call. -/
def FSM.processOut [DecidableEq St] (m : FSM St Cd) (cond : Cd) : FSM St Cd × St × Bool :=
  let r := FSM.process m cond
  (r.1, FSM.previousState r.1, r.2)

/-- The list of edges a single `process` call applies, in order: the edge
selected by the first `getEdge`, then — when it lands on the default
state — the edge selected by the re-dispatch, if any. -/
def FSM.takenEdges [DecidableEq St] (m : FSM St Cd) (cond : Cd) : List (Edge St Cd) :=
  match FSM.getEdge m cond with
  | none => []
  | some e =>
    if e.destination = m.default_state then
      match FSM.getEdge { m with previous_state := m.current_state, current_state := e.destination } cond with
      | none => [e]
      | some e2 => [e, e2]
    else [e]

/-- One build-phase operation: `createEdge` or `createGlobalEdge`. -/
inductive BuildOp (St Cd : Type) where
  | edge (source destination : St) (rule : Cd → Bool) (label : String) (flags : Nat)
  | globalEdge (destination : St) (rule : Cd → Bool) (label : String) (flags : Nat)

/-- Apply one build-phase operation. -/
def applyOp [DecidableEq St] (m : FSM St Cd) : BuildOp St Cd → FSM St Cd
  | .edge s d r l f => FSM.createEdge m s d r l f
  | .globalEdge d r l f => FSM.createGlobalEdge m d r l f

/-- Apply a sequence of build-phase operations, first to last. -/
def applyOps [DecidableEq St] (m : FSM St Cd) (ops : List (BuildOp St Cd)) : FSM St Cd :=
  ops.foldl applyOp m

/-- The fixed alphabet string of `TextFSM` (lowercase, uppercase, digits). -/
def alphabet : List Char :=
  "abcdefghijklmnopqrstuvwxyzABCDEFGHIJKLMNOPQRSTUVWXYZ0123456789".toList

/-- `TextFSM::isLetter`. -/
def isLetter (sym : Char) : Bool :=
  (sym ≥ 'a' && sym ≤ 'z') || (sym ≥ 'A' && sym ≤ 'Z')

/-- `TextFSM::isNumber`. -/
def isNumber (sym : Char) : Bool := sym ≥ '0' && sym ≤ '9'

/-- `TextFSM::isSpace`. -/
def isSpace (sym : Char) : Bool := sym == ' ' || sym == '\t'

/-- The `switch (rule[++idx])` of the `\` branch of `checkSymbol`: whether
the escape character `e` makes the symbol match.  A character with no
`case` label (including the NUL read at the end of the pattern) matches
nothing. -/
def escMatch (e sym : Char) : Bool :=
  match e with
  | '\\' => sym == '\\'
  | '^' => sym == '^'
  | '-' => sym == '-'
  | '.' => sym == '.'
  | 'w' => isLetter sym
  | 'd' => isNumber sym
  | 's' => isSpace sym
  | 'n' => sym == '\n'
  | 't' => sym == '\t'
  | '0' => sym == '\x00'
  | _ => false

/-- The inner alphabet loop of the `-` branch of `checkSymbol`: scan `alph`
keeping the `inside` flag, set `inside` on the left bound `prev`, report a
match when `inside` holds and the symbol is reached, and stop at the right
bound `y`. -/
def rangeScan : List Char → Bool → Char → Char → Char → Bool
  | [], _, _, _, _ => false
  | a :: rest, inside, prev, y, sym =>
    let inside2 := inside || (a == prev)
    if inside2 && (sym == a) then true
    else if a == y then false
    else rangeScan rest inside2 prev y sym

/-- The suffix of a list starting at the first occurrence of `prev` (the
whole suffix including `prev`); `[]` when `prev` does not occur. -/
def suffixFrom (prev : Char) : List Char → List Char
  | [] => []
  | a :: rest => if a == prev then a :: rest else suffixFrom prev rest

/-- The scanning loop of `TextFSM::checkSymbol`, carrying the `direct` flag
and `previous_symbol`.  The `-` and `\` branches consume the following
character; at the end of the pattern they read the NUL terminator
(`'\x00'`), exactly as the C code reads `rule[strlen(rule)]`. -/
def checkSymbolAux (sym : Char) : Bool → Char → List Char → Bool
  | direct, _, [] => !direct
  | direct, prev, c :: rest =>
    if c == '^' then checkSymbolAux sym false c rest
    else if c == '.' then direct
    else if c == '-' then
      match rest with
      | [] => if rangeScan alphabet false prev '\x00' sym then direct else !direct
      | y :: rest2 =>
        if rangeScan alphabet false prev y sym then direct
        else checkSymbolAux sym direct y rest2
    else if c == '\\' then
      match rest with
      | [] => if escMatch '\x00' sym then direct else !direct
      | e :: rest2 =>
        if escMatch e sym then direct
        else checkSymbolAux sym direct e rest2
    else if c == sym then direct
    else checkSymbolAux sym direct c rest

/-- `TextFSM::checkSymbol(rule, sym)`: scan the rule left to right with
`direct = true` and `previous_symbol = 0` initially. -/
def checkSymbol (rule : List Char) (sym : Char) : Bool :=
  checkSymbolAux sym true '\x00' rule

/-- Equality-with-`'x'` predicate used by the concrete example machines. -/
def xpred : Char → Bool := fun c => c == 'x'

/-- Example machine: default state `0`, start state `1`, an edge `A` from
`1` to `0` on `'x'` and an edge `B` from `0` to `2` on `'x'`. -/
def exampleM : FSM Nat Char :=
  FSM.createEdge (FSM.createEdge (FSM.initWithStart 0 1) 1 0 xpred "A" 0) 0 2 xpred "B" 0

/-- The edge `A` of `exampleM`. -/
def edgeA : Edge Nat Char := mkEdge 1 0 xpred "A" 0

/-- The edge `B` of `exampleM`. -/
def edgeB : Edge Nat Char := mkEdge 0 2 xpred "B" 0

/-- Example machine with a local edge `L` (`0` to `1` on `'x'`) and a global
edge `G` (to `2` on `'x'`), both accepting the same symbol. -/
def prioM : FSM Nat Char :=
  FSM.createGlobalEdge (FSM.createEdge (FSM.init 0) 0 1 xpred "L" 0) 2 xpred "G" 0

/-- The local edge `L` of `prioM`. -/
def edgeL : Edge Nat Char := mkEdge 0 1 xpred "L" 0

/-- A concrete build-phase operation list used by witnesses. -/
def opsW : List (BuildOp Nat Char) :=
  [BuildOp.edge 2 3 xpred "P" 0, BuildOp.globalEdge 4 xpred "G" E_SILENT]

/-- The machine built from `opsW` over `FSM.initWithStart 0 1`. -/
def M9 : FSM Nat Char := applyOps (FSM.initWithStart 0 1) opsW

/-- Helper: if the left bound never occurs in the scanned alphabet and the
`inside` flag is still off, the range loop matches nothing. -/
theorem rangeScan_left_absent (prev y sym : Char) :
    ∀ alph : List Char, prev ∉ alph → rangeScan alph false prev y sym = false := by
  intro alph
  induction alph with
  | nil => intro _; rfl
  | cons a rest ih =>
    intro h
    have ha : (a == prev) = false := by
      rw [beq_eq_false_iff_ne]
      intro he
      exact h (by rw [he]; exact List.mem_cons_self _ _)
    simp only [rangeScan, ha, Bool.or_false, Bool.false_and, Bool.false_eq_true, if_false]
    split
    · rfl
    · exact ih (fun hm => h (List.mem_cons_of_mem _ hm))

/-- Helper: if the right bound never occurs in the scanned alphabet, the
range loop scans to the end, and matches exactly the elements from the
first occurrence of the left bound onward (everything when `inside` is
already set). -/
theorem rangeScan_right_absent (prev y sym : Char) :
    ∀ alph : List Char, y ∉ alph → ∀ inside : Bool,
      rangeScan alph inside prev y sym =
        (if inside then alph.contains sym else (suffixFrom prev alph).contains sym) := by
  intro alph
  induction alph with
  | nil => intro _ inside; cases inside <;> rfl
  | cons a rest ih =>
    intro h inside
    have hay : (a == y) = false := by
      rw [beq_eq_false_iff_ne]
      intro he
      exact h (by rw [he]; exact List.mem_cons_self _ _)
    have hrest : y ∉ rest := fun hm => h (List.mem_cons_of_mem _ hm)
    cases inside with
    | true =>
      simp only [rangeScan, Bool.true_or, Bool.true_and, hay, Bool.false_eq_true, if_false,
        if_true, List.contains_cons]
      by_cases hs : (sym == a) = true
      · simp [hs]
      · simp only [hs, Bool.false_eq_true, if_false, ih hrest true, if_true]
        simp [Bool.eq_false_iff.mpr hs]
    | false =>
      by_cases hp : (a == prev) = true
      · simp only [rangeScan, hp, Bool.or_true, Bool.true_and, hay, Bool.false_eq_true, if_false]
        have hsf : suffixFrom prev (a :: rest) = a :: rest := by
          simp [suffixFrom, hp]
        rw [hsf]
        by_cases hs : (sym == a) = true
        · simp only [hs, if_true, List.contains_cons]
          simp [beq_iff_eq.mp hs]
        · simp only [hs, Bool.false_eq_true, if_false, ih hrest true, if_true, List.contains_cons]
          simp [Bool.eq_false_iff.mpr hs]
      · have hp2 : (a == prev) = false := Bool.eq_false_iff.mpr hp
        simp only [rangeScan, hp2, Bool.or_false, Bool.false_and, Bool.false_eq_true, if_false,
          hay]
        have hsf : suffixFrom prev (a :: rest) = suffixFrom prev rest := by
          simp [suffixFrom, hp2]
        rw [hsf, ih hrest false]
        simp

/-- Claim C1 (counterexample): in the pattern `a-` the range segment has a
trailing `-` with no bound after it, so the claim predicts that the
compiled predicate obtains no match from the range for any symbol; but the
predicate accepts `'b'` (the literal `a` alone accepts nothing but `'a'`,
so the match comes from the range segment). -/
theorem range_open_end_cex :
    checkSymbol ['a', '-'] 'b' = true ∧ checkSymbol ['a'] 'b' = false := by
  constructor <;> rfl

/-- Claim C1 (amended): if the left bound is absent from the fixed alphabet
the range segment matches no symbol; but if the right bound is absent
(including a trailing `-`, where the NUL terminator is read as the bound)
the segment matches exactly the alphabet symbols from the first occurrence
of the left bound through the end of the alphabet, not nothing. -/
theorem range_bounds_amended (prev y sym : Char) :
    (prev ∉ alphabet → rangeScan alphabet false prev y sym = false)
  ∧ (y ∉ alphabet → rangeScan alphabet false prev y sym = (suffixFrom prev alphabet).contains sym) := by
  constructor
  · exact rangeScan_left_absent prev y sym alphabet
  · intro h
    rw [rangeScan_right_absent prev y sym alphabet h false]
    simp

/-- Witness for `range_bounds_amended`: the dash-as-left-bound range of
pattern `--z` matches nothing, while the open-ended range of `a-` (right
bound read as NUL) does match `'z'`. -/
theorem range_bounds_amended_witness :
    rangeScan alphabet false '-' 'z' 'm' = false ∧
    rangeScan alphabet false 'a' '\x00' 'z' = true := by
  constructor
  · exact (range_bounds_amended '-' 'z' 'm').1 (by decide)
  · exact ((range_bounds_amended 'a' '\x00' 'z').2 (by decide)).trans (by decide)

/-- Claim C6: a pattern ending in a lone backslash reads only the NUL
terminator past the visible pattern (modelled by `'\x00'`), and the
trailing backslash contributes no match: once the scan reaches a final lone
backslash the result is exactly the end-of-pattern fallback `!direct`, and
the one-character pattern `\` rejects every symbol. -/
theorem checkSymbol_trailing_backslash :
    (∀ (sym prev : Char) (direct : Bool), checkSymbolAux sym direct prev ['\\'] = !direct)
  ∧ (∀ sym : Char, checkSymbol ['\\'] sym = false) := by
  constructor
  · intro sym prev direct
    rfl
  · intro sym
    rfl

/-- Claim C10: the empty pattern rejects every symbol, and the pattern `^`
(bare negation with no alternatives) accepts every symbol. -/
theorem checkSymbol_empty_and_caret (sym : Char) :
    checkSymbol [] sym = false ∧ checkSymbol ['^'] sym = true := ⟨rfl, rfl⟩

/-- Helper: `getEdge` does not read `previous_state`. -/
theorem FSM.getEdge_prev [DecidableEq St] (m : FSM St Cd) (v : St) (cond : Cd) :
    FSM.getEdge { m with previous_state := v } cond = FSM.getEdge m cond := rfl

/-- Helper: the per-edge contribution to `passed_edge` is exactly the
negation of the `E_SILENT` membership test. -/
theorem passedContribution_not_silent (flags : Nat) :
    passedContribution flags = !(isSilent flags) := by
  simp [passedContribution, isSilent, E_SILENT, bne]

/-- Helper: `process` always leaves `previous_state` equal to the
`current_state` it started from. -/
theorem process_previous [DecidableEq St] (m : FSM St Cd) (cond : Cd) :
    (FSM.process m cond).1.previous_state = m.current_state := by
  unfold FSM.process
  repeat' split
  all_goals rfl

/-- Claim C7: a `process` call modifies nothing but `current_state` and
`previous_state`: the default state, the possible-state set, the per-state
edge lists, the global edge list, and the state-name map are unchanged. -/
theorem process_frame [DecidableEq St] (m : FSM St Cd) (cond : Cd) :
    (FSM.process m cond).1.default_state = m.default_state ∧
    (FSM.process m cond).1.possible_states = m.possible_states ∧
    (FSM.process m cond).1.edges = m.edges ∧
    (FSM.process m cond).1.global_edges = m.global_edges ∧
    (FSM.process m cond).1.state_names = m.state_names := by
  unfold FSM.process
  repeat' split
  all_goals exact ⟨rfl, rfl, rfl, rfl, rfl⟩

/-- Claim C8: the `process(cond, ended_state, state_changed)` overload
stores into `state_changed` exactly the boolean `process(cond)` returns,
and into `ended_state` the pre-transition state: the value `current_state`
had before the call, which equals what `previousState()` reports after the
call. -/
theorem processOut_spec [DecidableEq St] (m : FSM St Cd) (cond : Cd) :
    (FSM.processOut m cond).2.2 = (FSM.process m cond).2 ∧
    (FSM.processOut m cond).2.1 = m.current_state ∧
    (FSM.processOut m cond).2.1 = (FSM.process m cond).1.previous_state := by
  exact ⟨rfl, process_previous m cond, rfl⟩

/-- Claim C2: the boolean returned by `process` is the OR, over the edges
applied during the call, of "the edge does not carry `E_SILENT`": it is
`false` when every taken edge is silent (in particular when no edge is
taken) and `true` when at least one taken edge is not silent. -/
theorem process_silent_or [DecidableEq St] (m : FSM St Cd) (cond : Cd) :
    (FSM.process m cond).2 = (FSM.takenEdges m cond).any (fun e => !(isSilent e.flags)) := by
  cases h1 : FSM.getEdge m cond with
  | none => simp [FSM.process, FSM.takenEdges, FSM.getEdge_prev, h1]
  | some e =>
    by_cases hd : e.destination = m.default_state
    · cases h2 : FSM.getEdge { m with previous_state := m.current_state, current_state := e.destination } cond with
      | none =>
        simp only [FSM.process, FSM.takenEdges, FSM.getEdge_prev, h1, h2, if_pos hd]
        simp [passedContribution_not_silent]
      | some e2 =>
        simp only [FSM.process, FSM.takenEdges, FSM.getEdge_prev, h1, h2, if_pos hd]
        simp [passedContribution_not_silent]
    · simp only [FSM.process, FSM.takenEdges, FSM.getEdge_prev, h1, if_neg hd]
      simp [passedContribution_not_silent]

/-- Claim C5: on a symbol accepted by no local edge of the current state
and no global edge, `process` returns `false`, leaves `current_state`
unchanged, and leaves `previous_state` equal to that same state. -/
theorem process_no_match [DecidableEq St] (m : FSM St Cd) (cond : Cd)
    (hl : ∀ e ∈ m.edges m.current_state, e.rule cond = false)
    (hg : ∀ e ∈ m.global_edges, e.rule cond = false) :
    (FSM.process m cond).2 = false ∧
    (FSM.process m cond).1.current_state = m.current_state ∧
    (FSM.process m cond).1.previous_state = m.current_state := by
  have h1 : (m.edges m.current_state).find? (fun e => e.rule cond) = none :=
    List.find?_eq_none.mpr (fun e he => by simp [hl e he])
  have h2 : m.global_edges.find? (fun e => e.rule cond) = none :=
    List.find?_eq_none.mpr (fun e he => by simp [hg e he])
  have hnone : FSM.getEdge m cond = none := by
    unfold FSM.getEdge
    rw [h1, h2]
  unfold FSM.process
  rw [FSM.getEdge_prev, hnone]
  exact ⟨rfl, rfl, rfl⟩

/-- Witness for `process_no_match`: `exampleM` (current state `1`) has no
edge accepting `'q'`. -/
theorem process_no_match_witness :
    (FSM.process exampleM 'q').2 = false ∧
    (FSM.process exampleM 'q').1.current_state = 1 ∧
    (FSM.process exampleM 'q').1.previous_state = 1 := by
  have hl : ∀ e ∈ exampleM.edges exampleM.current_state, e.rule 'q' = false := by
    intro e he
    have h2 : e ∈ [edgeA] := he
    rw [List.mem_singleton] at h2
    subst h2
    rfl
  have hg : ∀ e ∈ exampleM.global_edges, e.rule 'q' = false := by
    intro e he
    exact absurd he (List.not_mem_nil e)
  exact process_no_match exampleM 'q' hl hg

/-- Claim C3: with `S = current_state` distinct from the default state, if
the edge selected for symbol `x` at `S` is `A` with destination the default
state, and the edge selected for `x` at the default state is `B`, then one
`process x` call ends with `current_state = B.destination` and
`previous_state = S`. -/
theorem process_default_reentry [DecidableEq St] (m : FSM St Cd) (A B : Edge St Cd) (x : Cd)
    (_hS : m.current_state ≠ m.default_state)
    (hA : FSM.getEdge m x = some A)
    (hAd : A.destination = m.default_state)
    (hB : FSM.getEdge { m with previous_state := m.current_state, current_state := m.default_state } x = some B) :
    (FSM.process m x).1.current_state = B.destination ∧
    (FSM.process m x).1.previous_state = m.current_state := by
  simp only [FSM.process, FSM.getEdge_prev, hA, hAd, if_true, eq_self_iff_true, hB]
  exact ⟨trivial, trivial⟩

/-- Witness for `process_default_reentry`: in `exampleM`, edge `A` sends
`1` to the default state `0` on `'x'` and edge `B` sends `0` to `2`, so one
call moves `1` to `2`. -/
theorem process_default_reentry_witness :
    (FSM.process exampleM 'x').1.current_state = 2 ∧
    (FSM.process exampleM 'x').1.previous_state = 1 := by
  have h := process_default_reentry exampleM edgeA edgeB 'x' (by decide) rfl rfl rfl
  exact ⟨h.1.trans rfl, h.2.trans rfl⟩

/-- Helper: `find?` returns the first element satisfying the predicate. -/
theorem find?_append_first {α : Type} (p : α → Bool) (e : α) (l2 : List α) :
    ∀ l1 : List α, (∀ x ∈ l1, p x = false) → p e = true →
      (l1 ++ e :: l2).find? p = some e := by
  intro l1
  induction l1 with
  | nil =>
    intro _ he
    simp [List.find?_cons_of_pos _ he]
  | cons a rest ih =>
    intro h he
    have ha : p a = false := h a (List.mem_cons_self _ _)
    rw [List.cons_append, List.find?_cons_of_neg _ (by simp [ha])]
    exact ih (fun x hx => h x (List.mem_cons_of_mem _ hx)) he

/-- Claim C4: edge selection takes the first accepting edge, in
registration order, among the local edges of the current state; the global
list is consulted, in registration order, only when no local edge accepts
the symbol — so a local match hides any global match. -/
theorem getEdge_local_first [DecidableEq St] (m : FSM St Cd) (cond : Cd) :
    (∀ l1 e l2, m.edges m.current_state = l1 ++ e :: l2 →
      (∀ x ∈ l1, x.rule cond = false) → e.rule cond = true →
      FSM.getEdge m cond = some e)
  ∧ ((∀ x ∈ m.edges m.current_state, x.rule cond = false) →
      ∀ g1 g g2, m.global_edges = g1 ++ g :: g2 →
      (∀ x ∈ g1, x.rule cond = false) → g.rule cond = true →
      FSM.getEdge m cond = some g) := by
  constructor
  · intro l1 e l2 hsplit hl he
    unfold FSM.getEdge
    rw [hsplit, find?_append_first _ e l2 l1 hl he]
  · intro hl g1 g g2 hsplit hg1 hg
    have h1 : (m.edges m.current_state).find? (fun e => e.rule cond) = none :=
      List.find?_eq_none.mpr (fun e he => by simp [hl e he])
    unfold FSM.getEdge
    rw [h1, hsplit, find?_append_first _ g g2 g1 hg1 hg]

/-- Witness for `getEdge_local_first`: in `prioM` both the local edge `L`
and a global edge accept `'x'`; selection returns the local edge `L`. -/
theorem getEdge_local_first_witness : FSM.getEdge prioM 'x' = some edgeL :=
  (getEdge_local_first prioM 'x').1 [] edgeL [] rfl (by simp) rfl

/-- Helper: an inserted element is a member. -/
theorem mem_insertState [DecidableEq St] (l : List St) (x : St) : x ∈ insertState l x := by
  unfold insertState
  split
  · assumption
  · simp [List.concat_eq_append]

/-- Helper: insertion preserves membership. -/
theorem mem_insertState_of_mem [DecidableEq St] (l : List St) (x y : St) (h : x ∈ l) :
    x ∈ insertState l y := by
  unfold insertState
  split
  · exact h
  · simp [List.concat_eq_append, h]

/-- Helper: one build operation only grows `possible_states`. -/
theorem possible_subset_applyOp [DecidableEq St] (m : FSM St Cd) (op : BuildOp St Cd) (x : St)
    (h : x ∈ m.possible_states) : x ∈ (applyOp m op).possible_states := by
  cases op with
  | edge s d r l f => exact mem_insertState_of_mem _ _ _ (mem_insertState_of_mem _ _ _ h)
  | globalEdge d r l f => exact mem_insertState_of_mem _ _ _ h

/-- Helper: a build sequence only grows `possible_states`. -/
theorem possible_subset_applyOps [DecidableEq St] (ops : List (BuildOp St Cd)) :
    ∀ (m : FSM St Cd) (x : St), x ∈ m.possible_states → x ∈ (applyOps m ops).possible_states := by
  induction ops with
  | nil => intro m x h; exact h
  | cons op rest ih => intro m x h; exact ih (applyOp m op) x (possible_subset_applyOp m op x h)

/-- Helper: one build operation preserves the invariant that the default
state is known and every registered edge has known endpoints. -/
theorem closed_applyOp [DecidableEq St] (m : FSM St Cd) (op : BuildOp St Cd)
    (hdef : m.default_state ∈ m.possible_states)
    (hloc : ∀ st, ∀ e ∈ m.edges st,
      e.source ∈ m.possible_states ∧ e.destination ∈ m.possible_states)
    (hglob : ∀ e ∈ m.global_edges,
      e.source ∈ m.possible_states ∧ e.destination ∈ m.possible_states) :
    (applyOp m op).default_state ∈ (applyOp m op).possible_states
    ∧ (∀ st, ∀ e ∈ (applyOp m op).edges st,
        e.source ∈ (applyOp m op).possible_states ∧
        e.destination ∈ (applyOp m op).possible_states)
    ∧ (∀ e ∈ (applyOp m op).global_edges,
        e.source ∈ (applyOp m op).possible_states ∧
        e.destination ∈ (applyOp m op).possible_states) := by
  cases op with
  | edge s d r l f =>
    refine ⟨?_, ?_, ?_⟩
    · exact mem_insertState_of_mem _ _ _ (mem_insertState_of_mem _ _ _ hdef)
    · intro st e he
      simp only [applyOp, FSM.createEdge] at he ⊢
      by_cases hst : st = s
      · rw [if_pos hst, List.concat_eq_append, List.mem_append] at he
        cases he with
        | inl hold =>
          have h := hloc s e hold
          exact ⟨mem_insertState_of_mem _ _ _ (mem_insertState_of_mem _ _ _ h.1),
                 mem_insertState_of_mem _ _ _ (mem_insertState_of_mem _ _ _ h.2)⟩
        | inr hnew =>
          rw [List.mem_singleton] at hnew
          subst hnew
          exact ⟨mem_insertState_of_mem _ _ _ (mem_insertState _ _), mem_insertState _ _⟩
      · rw [if_neg hst] at he
        have h := hloc st e he
        exact ⟨mem_insertState_of_mem _ _ _ (mem_insertState_of_mem _ _ _ h.1),
               mem_insertState_of_mem _ _ _ (mem_insertState_of_mem _ _ _ h.2)⟩
    · intro e he
      simp only [applyOp, FSM.createEdge] at he ⊢
      have h := hglob e he
      exact ⟨mem_insertState_of_mem _ _ _ (mem_insertState_of_mem _ _ _ h.1),
             mem_insertState_of_mem _ _ _ (mem_insertState_of_mem _ _ _ h.2)⟩
  | globalEdge d r l f =>
    refine ⟨?_, ?_, ?_⟩
    · exact mem_insertState_of_mem _ _ _ hdef
    · intro st e he
      simp only [applyOp, FSM.createGlobalEdge] at he ⊢
      have h := hloc st e he
      exact ⟨mem_insertState_of_mem _ _ _ h.1, mem_insertState_of_mem _ _ _ h.2⟩
    · intro e he
      simp only [applyOp, FSM.createGlobalEdge] at he ⊢
      rw [List.concat_eq_append, List.mem_append] at he
      cases he with
      | inl hold =>
        have h := hglob e hold
        exact ⟨mem_insertState_of_mem _ _ _ h.1, mem_insertState_of_mem _ _ _ h.2⟩
      | inr hnew =>
        rw [List.mem_singleton] at hnew
        subst hnew
        exact ⟨mem_insertState_of_mem _ _ _ hdef, mem_insertState _ _⟩

/-- Helper: the invariant holds after any build sequence. -/
theorem closed_applyOps [DecidableEq St] (ops : List (BuildOp St Cd)) :
    ∀ m : FSM St Cd,
    m.default_state ∈ m.possible_states →
    (∀ st, ∀ e ∈ m.edges st,
      e.source ∈ m.possible_states ∧ e.destination ∈ m.possible_states) →
    (∀ e ∈ m.global_edges,
      e.source ∈ m.possible_states ∧ e.destination ∈ m.possible_states) →
    (applyOps m ops).default_state ∈ (applyOps m ops).possible_states
    ∧ (∀ st, ∀ e ∈ (applyOps m ops).edges st,
        e.source ∈ (applyOps m ops).possible_states ∧
        e.destination ∈ (applyOps m ops).possible_states)
    ∧ (∀ e ∈ (applyOps m ops).global_edges,
        e.source ∈ (applyOps m ops).possible_states ∧
        e.destination ∈ (applyOps m ops).possible_states) := by
  induction ops with
  | nil => intro m hdef hloc hglob; exact ⟨hdef, hloc, hglob⟩
  | cons op rest ih =>
    intro m hdef hloc hglob
    have h := closed_applyOp m op hdef hloc hglob
    exact ih (applyOp m op) h.1 h.2.1 h.2.2

/-- Claim C9: after construction (default state `d`, start state `s`) and
any sequence of `createEdge` and `createGlobalEdge` calls,
`possible_states` contains `d`, `s`, and the source and destination of
every registered local and global edge. -/
theorem possibleStates_superset [DecidableEq St] (d s : St) (ops : List (BuildOp St Cd)) :
    d ∈ (applyOps (FSM.initWithStart d s) ops).possible_states
  ∧ s ∈ (applyOps (FSM.initWithStart d s) ops).possible_states
  ∧ (∀ st, ∀ e ∈ (applyOps (FSM.initWithStart d s) ops).edges st,
      e.source ∈ (applyOps (FSM.initWithStart d s) ops).possible_states ∧
      e.destination ∈ (applyOps (FSM.initWithStart d s) ops).possible_states)
  ∧ (∀ e ∈ (applyOps (FSM.initWithStart d s) ops).global_edges,
      e.source ∈ (applyOps (FSM.initWithStart d s) ops).possible_states ∧
      e.destination ∈ (applyOps (FSM.initWithStart d s) ops).possible_states) := by
  have hd0 : d ∈ (FSM.initWithStart d s : FSM St Cd).possible_states :=
    mem_insertState_of_mem _ _ _ (mem_insertState _ _)
  have hs0 : s ∈ (FSM.initWithStart d s : FSM St Cd).possible_states := mem_insertState _ _
  have h := closed_applyOps ops (FSM.initWithStart d s) hd0
    (fun st e he => absurd he (List.not_mem_nil e))
    (fun e he => absurd he (List.not_mem_nil e))
  exact ⟨possible_subset_applyOps ops _ d hd0, possible_subset_applyOps ops _ s hs0,
    h.2.1, h.2.2⟩

/-- Witness for `possibleStates_superset` on the machine `M9` built from
`opsW`: the default state, the start state, and the endpoints of the
registered local edge are in `possible_states`. -/
theorem possibleStates_superset_witness :
    (0 : Nat) ∈ M9.possible_states ∧ (1 : Nat) ∈ M9.possible_states ∧
    ((mkEdge 2 3 xpred "P" 0 : Edge Nat Char).source ∈ M9.possible_states ∧
     (mkEdge 2 3 xpred "P" 0 : Edge Nat Char).destination ∈ M9.possible_states) := by
  have h := possibleStates_superset 0 1 opsW
  exact ⟨h.1, h.2.1, h.2.2.1 2 (mkEdge 2 3 xpred "P" 0) (List.Mem.head _)⟩
